import Mathlib

/-!
Verification of the ParTI sparse-tensor split engine (`src/sptensor/split.c`)
and its growable-vector collaborator (`src/vector/vector.c`).

The C code is shallowly embedded: `size_t` values become `Nat` (no arithmetic in
the embedded code paths overflows at any input the claims quantify over), array
reads become `List.getD` with default `0`, fallible calls return `Except`.
The floating-point scalar type `sptScalar` is never computed with by the split
engine (values are only copied verbatim), so it is modelled by `Int`.
-/

/-- Scalar values (`sptScalar` in the C source). The split engine and the vector
operations only move these around, never compute with them, so they are modelled
as integers. -/
abbrev SptScalar := Int

/-- `sptSparseTensor`: coordinate-format sparse tensor.  `inds` holds one index
array per mode, `values` the value array; the live contents `data[0..nnz)` of
each backing vector are modelled as plain lists. -/
structure SptSparseTensor where
  nmodes : Nat
  ndims : List Nat
  sortkey : Nat
  nnz : Nat
  inds : List (List Nat)
  values : List SptScalar
deriving DecidableEq

/-- `spt_TagSplitStatus`: the split engine's cursor state.  The four
`sptSizeVector` stacks are modelled by their live contents `data[0..len)`;
the fields named `partial_low` / `partial_high` in the C source are spelled
`part_low` / `part_high` here. -/
structure SplitStatus where
  tsr : SptSparseTensor
  cuts_by_mode : List Nat
  part_low : List Nat
  part_high : List Nat
  index_step : List Nat
  no_more : Bool
deriving DecidableEq

/-- Error codes of the C library that the split engine produces
(`SPTERR_NO_MORE`, `SPTERR_VALUE_ERROR`). -/
inductive SptError where
  | noMore
  | valueError
deriving DecidableEq

/-- The value-change counting loop shared by the Stage-1 scans of
`spt_SplitSparseTensor`: starting with current run value `last` and `count`
transitions counted so far, scan `fuel` further positions from `i`, bumping the
count and the run value at every change. -/
def countLoop (arr : List Nat) : Nat → Nat → Nat → Nat → Nat
  | _, count, _, 0 => count
  | last, count, i, fuel+1 =>
    if arr.getD i 0 ≠ last then countLoop arr (arr.getD i 0) (count+1) (i+1) fuel
    else countLoop arr last count (i+1) fuel

/-- `index_counts` computation of `spt_SplitSparseTensor` (lines 82-92):
number of distinct index values (runs) of `arr` on `[low, high)`; the scan
starts with `last_index = arr[low]` and `index_counts = 1`. -/
def spt_distinctCount (arr : List Nat) (low high : Nat) : Nat :=
  countLoop arr (arr.getD low 0) 1 low (high - low)

/-- The cut-searching loop of `spt_SplitSparseTensor` (lines 110-119 and
166-175): scan from `i` for `fuel` positions; at each value change, stop and
return the current position once `count` has reached `step`, otherwise bump the
count; if the scan runs off the range, return the end position. -/
def cutLoop (arr : List Nat) (step : Nat) : Nat → Nat → Nat → Nat → Nat
  | _, _, i, 0 => i
  | last, count, i, fuel+1 =>
    if arr.getD i 0 ≠ last then
      if count = step then i
      else cutLoop arr step (arr.getD i 0) (count+1) (i+1) fuel
    else cutLoop arr step last count (i+1) fuel

/-- The boundary position reached by the cut scan of `spt_SplitSparseTensor`
over `arr[low..high)` with step budget `step`. -/
def spt_findCut (arr : List Nat) (low high step : Nat) : Nat :=
  cutLoop arr step (arr.getD low 0) 1 low (high - low)

/-- `index_step` computation of `spt_SplitSparseTensor` (lines 97-100):
`index_step = 1; if (index_counts != 0) index_step = (index_counts-1)/cuts + 1;`. -/
def computeIndexStep (index_counts cuts : Nat) : Nat :=
  if index_counts ≠ 0 then (index_counts - 1) / cuts + 1 else 1

/-- Stage 1 of `spt_SplitSparseTensor` (lines 74-126): starting at stack depth
`mode`, for each remaining mode count the distinct values on the current range,
push the computed `index_step`, run the cut scan with the just-pushed step
(`index_step.data[mode]`), and push the child range `(low, i)`.  `fuel` is
`nmodes - mode`, the number of iterations the C `while (mode < nmodes)` loop
performs.  State is `(part_low, part_high, index_step)`. -/
def descendLoop (tsr : SptSparseTensor) (cuts : List Nat) :
    Nat → Nat → List Nat × List Nat × List Nat → List Nat × List Nat × List Nat
  | 0, _, st => st
  | fuel+1, mode, (pl, ph, istep) =>
    let low := pl.getD mode 0
    let high := ph.getD mode 0
    let arr := tsr.inds.getD mode []
    let istep2 := istep ++ [computeIndexStep (spt_distinctCount arr low high) (cuts.getD mode 0)]
    let i := spt_findCut arr low high (istep2.getD mode 0)
    descendLoop tsr cuts fuel (mode+1) (pl ++ [low], ph ++ [i], istep2)

/-- Stage 3 of `spt_SplitSparseTensor` (lines 148-180): `mode` counts down from
`nmodes`; at each mode compare `low = partial_high[mode+1]` with
`high = partial_high[mode]`; pop all three stacks and continue when
`low >= high`, otherwise run the cut scan with the stored
`index_step.data[mode]` and overwrite the level `mode+1` range in place,
reporting success.  Returns the final stacks and whether a next chunk was
positioned (`false` means the stack emptied and `no_more` must be set). -/
def backtrackLoop (tsr : SptSparseTensor) :
    Nat → List Nat × List Nat × List Nat → (List Nat × List Nat × List Nat) × Bool
  | 0, st => (st, false)
  | mode+1, (pl, ph, istep) =>
    let low := ph.getD (mode+1) 0
    let high := ph.getD mode 0
    if low ≥ high then
      backtrackLoop tsr mode (pl.dropLast, ph.dropLast, istep.dropLast)
    else
      let i := spt_findCut (tsr.inds.getD mode []) low high (istep.getD mode 0)
      ((pl.set (mode+1) low, ph.set (mode+1) i, istep), true)

/-- Chunk materialization (lines 128-145 of `split.c`).  Modelled from the
spec: `sptNewSparseTensor` lives in `src/sptensor/sptensor.c`, which is not in
the provided tree; per the spec it allocates a new tensor "with the same mode
count/dimensions" whose chunks inherit the source's sort order.  The
`sptResizeSizeVector`/`memcpy` pairs that fill each mode's index array and the
value array with the source's `[cut_low, cut_high)` subrange are modelled as
list slices (every copied position is overwritten by the `memcpy`, so the
resize's unspecified tail never survives), and `nnz` is set to
`cut_high - cut_low`. -/
def materializeChunk (tsr : SptSparseTensor) (cut_low cut_high : Nat) : SptSparseTensor :=
  { nmodes := tsr.nmodes
    ndims := tsr.ndims
    sortkey := tsr.nmodes - 1
    nnz := cut_high - cut_low
    inds := tsr.inds.map (fun arr => (arr.drop cut_low).take (cut_high - cut_low))
    values := (tsr.values.drop cut_low).take (cut_high - cut_low) }

/-- `spt_SplitSparseTensor` (lines 65-185) with the internal cut range
`(cut_low, cut_high)` exposed alongside the materialized chunk so that the
source-range of each produced chunk can be spoken about.  Returns the pair
(result, mutated status); on `SPTERR_NO_MORE` the status is returned
untouched, exactly as the C early return leaves `*status` unmodified. -/
def spt_SplitCore (status : SplitStatus) :
    Except SptError ((Nat × Nat) × SptSparseTensor) × SplitStatus :=
  if status.no_more then (Except.error SptError.noMore, status)
  else
    let mode := status.part_low.length - 1
    let st1 := descendLoop status.tsr status.cuts_by_mode (status.tsr.nmodes - mode) mode
      (status.part_low, status.part_high, status.index_step)
    let cut_low := st1.1.getD status.tsr.nmodes 0
    let cut_high := st1.2.1.getD status.tsr.nmodes 0
    let dest := materializeChunk status.tsr cut_low cut_high
    let bt := backtrackLoop status.tsr status.tsr.nmodes st1
    (Except.ok ((cut_low, cut_high), dest),
     { status with part_low := bt.1.1, part_high := bt.1.2.1, index_step := bt.1.2.2,
                   no_more := !bt.2 })

/-- `spt_SplitSparseTensor` as the caller sees it: the produced chunk (or
`SPTERR_NO_MORE`) and the mutated status. -/
def spt_SplitSparseTensor (status : SplitStatus) :
    Except SptError SptSparseTensor × SplitStatus :=
  ((spt_SplitCore status).1.map (fun r => r.2), (spt_SplitCore status).2)

/-- `spt_StartSplitSparseTensor` (lines 33-63): reject `nnz == 0` with
`SPTERR_NO_MORE`, reject `sortkey != nmodes-1` with `SPTERR_VALUE_ERROR`,
otherwise allocate the status: `cuts_by_mode` copied from the caller,
`partial_low` and `partial_high` as one-level stacks `[0]` / `[nnz]`, an empty
`index_step` stack, and a clear `no_more` flag. -/
def spt_StartSplitSparseTensor (tsr : SptSparseTensor) (cuts_by_mode : List Nat) :
    Except SptError SplitStatus :=
  if tsr.nnz = 0 then Except.error SptError.noMore
  else if tsr.sortkey ≠ tsr.nmodes - 1 then Except.error SptError.valueError
  else Except.ok
    { tsr := tsr, cuts_by_mode := cuts_by_mode,
      part_low := [0], part_high := [tsr.nnz], index_step := [], no_more := false }

/-- The program state a split engine call can touch: the borrowed source tensor
object and the heap-allocated status (`none` once freed). -/
structure SplitHeap where
  tensor : SptSparseTensor
  status : Option SplitStatus

/-- `spt_FinishSplitSparseTensor` (lines 187-194) on the program state: clears
the status's tensor reference, frees the four stack vectors and the status
allocation itself.  Its only writes go through the status pointer; the tensor
object is never written. -/
def spt_FinishSplitSparseTensor (h : SplitHeap) : SplitHeap :=
  { tensor := h.tensor, status := none }

/-- Drive `spt_SplitSparseTensor` repeatedly (at most `fuel` calls), collecting
each produced chunk together with its source cut range, and stopping at the
first `SPTERR_NO_MORE`.  Returns the collected chunks and the final status. -/
def runSplit : Nat → SplitStatus → List ((Nat × Nat) × SptSparseTensor) × SplitStatus
  | 0, st => ([], st)
  | fuel+1, st =>
    match spt_SplitCore st with
    | (Except.error _, st2) => ([], st2)
    | (Except.ok c, st2) =>
      let rest := runSplit fuel st2
      (c :: rest.1, rest.2)

/-- Iterate `spt_SplitSparseTensor` `n` times, keeping only the status. -/
def produceIter : Nat → SplitStatus → SplitStatus
  | 0, st => st
  | n+1, st => produceIter n (spt_SplitSparseTensor st).2

/-- `chainFrom a rs b`: the ranges `rs` tile `[a, b)` consecutively — the first
starts at `a`, each range is nonempty and starts where the previous one ended,
and the last ends at `b`. -/
def chainFrom : Nat → List (Nat × Nat) → Nat → Bool
  | a, [], b => a == b
  | a, r :: rest, b => (r.1 == a) && decide (a < r.2) && chainFrom r.2 rest b

/-- The index tuple of nonzero `p`: one index value per mode. -/
def entryAt (tsr : SptSparseTensor) (p : Nat) : List Nat :=
  tsr.inds.map (fun arr => arr.getD p 0)

/-- Lexicographic comparison of index tuples. -/
def lexLe : List Nat → List Nat → Bool
  | [], _ => true
  | _ :: _, [] => false
  | a :: as, b :: bs => if a < b then true else if b < a then false else lexLe as bs

/-- The tensor's nonzeros are sorted in full lexicographic order across modes
`0..nmodes-1` (adjacent entries compare `≤`). -/
def tensorSorted (tsr : SptSparseTensor) : Bool :=
  (List.range (tsr.nnz - 1)).all (fun p => lexLe (entryAt tsr p) (entryAt tsr (p+1)))

/-- The `partial_low` entry of the current top stack level: the position where
the next produced chunk will start. -/
def topLow (st : SplitStatus) : Nat :=
  st.part_low.getD (st.part_low.length - 1) 0

/-- The status a successful `spt_StartSplitSparseTensor` builds. -/
def startStatus (tsr : SptSparseTensor) (cuts_by_mode : List Nat) : SplitStatus :=
  ⟨tsr, cuts_by_mode, [0], [tsr.nnz], [], false⟩

/- ## Growable vectors (`src/vector/vector.c`) -/

/-- `sptVector`: growable buffer of scalars.  `data` models the allocated
buffer, of length `cap`. -/
structure SptVector where
  len : Nat
  cap : Nat
  data : List SptScalar
deriving DecidableEq

/-- `sptSizeVector`: growable buffer of `size_t`. -/
structure SptSizeVector where
  len : Nat
  cap : Nat
  data : List Nat
deriving DecidableEq

/-- `realloc` on the modelled buffer: the prefix `min (old, new)` is preserved;
fresh space is uninitialized in C and modelled by `fill`. -/
def reallocList {α : Type} (fill : α) (l : List α) (newcap : Nat) : List α :=
  l.take newcap ++ List.replicate (newcap - l.length) fill

/-- `sptNewVector` (lines 33-45): clamp the capacity up to the length and to a
minimum of 2, then allocate (malloc leaves the contents uninitialized,
modelled by zeros). -/
def sptNewVector (len cap : Nat) : SptVector :=
  let cap1 := if cap < len then len else cap
  let cap2 := if cap1 < 2 then 2 else cap1
  { len := len, cap := cap2, data := List.replicate cap2 0 }

/-- `sptAppendVector` (lines 85-100): grow by factor 1.5 when full, then write
at position `len` and bump `len`. -/
def sptAppendVector (vec : SptVector) (value : SptScalar) : SptVector :=
  let vec :=
    if vec.cap ≤ vec.len then
      { vec with cap := vec.cap + vec.cap / 2,
                 data := reallocList 0 vec.data (vec.cap + vec.cap / 2) }
    else vec
  { vec with data := vec.data.set vec.len value, len := vec.len + 1 }

/-- The copy loop of `sptAppendVectorWithVector` (lines 118-121): each
iteration writes `append_vec->data[i]` at `vec->data[vec->len + i]` and then
increments `vec->len`, so the `i`-th write lands at `len0 + 2*i`.  `fuel`
counts the remaining iterations (`append_vec->len` in total). -/
def sptAppendVectorWithVectorLoop (src : List SptScalar) :
    Nat → Nat → List SptScalar → Nat → List SptScalar × Nat
  | _, len, data, 0 => (data, len)
  | i, len, data, fuel+1 =>
    sptAppendVectorWithVectorLoop src (i+1) (len+1) (data.set (len + i) (src.getD i 0)) fuel

/-- `sptAppendVectorWithVector` (lines 110-124): grows the buffer only when
`cap <= len` — not when `cap <= len + append_vec->len` — then runs the copy
loop and ends with `len = len + append_vec->len`. -/
def sptAppendVectorWithVector (vec append_vec : SptVector) : SptVector :=
  let grown :=
    if vec.cap ≤ vec.len then
      { vec with cap := vec.cap + append_vec.cap,
                 data := reallocList 0 vec.data (vec.cap + append_vec.cap) }
    else vec
  let out := sptAppendVectorWithVectorLoop append_vec.data 0 grown.len grown.data append_vec.len
  { grown with data := out.1, len := out.2 }

/-- `sptResizeVector` (lines 136-148): the new capacity is `max size 2`;
realloc only when it differs from the current capacity. -/
def sptResizeVector (vec : SptVector) (size : Nat) : SptVector :=
  let newcap := if size < 2 then 2 else size
  if newcap ≠ vec.cap then
    { len := size, cap := newcap, data := reallocList 0 vec.data newcap }
  else { vec with len := size }

/-- `sptCopyVector` (lines 70-75): a fresh vector of length and capacity
`src.len`, its first `src.len` positions copied from `src`. -/
def sptCopyVector (src : SptVector) : SptVector :=
  let dest := sptNewVector src.len src.len
  { dest with data := src.data.take src.len ++ dest.data.drop src.len }

/-- The copy loop of `sptAppendSizeVectorWithVector` (lines 260-262): here
`vec->len` is not touched inside the loop, so the `i`-th write lands at
`len + i`. -/
def sptAppendSizeVectorWithVectorLoop (src : List Nat) (len : Nat) :
    Nat → List Nat → Nat → List Nat
  | _, data, 0 => data
  | i, data, fuel+1 =>
    sptAppendSizeVectorWithVectorLoop src len (i+1) (data.set (len + i) (src.getD i 0)) fuel

/-- `sptAppendSizeVectorWithVector` (lines 251-266): computes
`newlen = len + append_vec->len` first and grows whenever `cap <= newlen`,
then copies and sets `len = newlen`. -/
def sptAppendSizeVectorWithVector (vec append_vec : SptSizeVector) : SptSizeVector :=
  let newlen := vec.len + append_vec.len
  let grown :=
    if vec.cap ≤ newlen then
      { vec with cap := vec.cap + append_vec.cap,
                 data := reallocList 0 vec.data (vec.cap + append_vec.cap) }
    else vec
  let out := sptAppendSizeVectorWithVectorLoop append_vec.data grown.len 0 grown.data append_vec.len
  { grown with data := out, len := newlen }

/- ## Concrete test fixtures -/

/-- The 2-mode tensor of Scenario A: nnz = 6, mode-0 indices `[0,0,1,1,2,2]`,
mode-1 indices `[0,1,0,1,0,1]`, fully lexicographically sorted
(`sortkey = nmodes - 1 = 1`). -/
def tsrA : SptSparseTensor :=
  { nmodes := 2, ndims := [3, 2], sortkey := 1, nnz := 6,
    inds := [[0, 0, 1, 1, 2, 2], [0, 1, 0, 1, 0, 1]],
    values := [10, 20, 30, 40, 50, 60] }

/-- The status `spt_StartSplitSparseTensor` builds for `tsrA` with
`cuts_by_mode = [3, 1]`. -/
def stA : SplitStatus :=
  { tsr := tsrA, cuts_by_mode := [3, 1],
    part_low := [0], part_high := [6], index_step := [], no_more := false }

/-- A status whose exhaustion flag is already set (as `spt_SplitSparseTensor`
leaves it after the last chunk). -/
def stExhausted : SplitStatus :=
  { tsr := tsrA, cuts_by_mode := [3, 1],
    part_low := [0], part_high := [6], index_step := [], no_more := true }

/-- Invariant of the split engine's stacks, maintained by `start` and every
`produce` call: the stack depth lies in `[1, nmodes+1]`, the three stacks have
matching lengths, level 0 is the whole range `[0, nnz)`, every level is a
nonempty range, and the range ends shrink with depth. -/
structure StackInv (st : SplitStatus) : Prop where
  nnz_pos : 0 < st.tsr.nnz
  depth_pos : 1 ≤ st.part_low.length
  depth_le : st.part_low.length ≤ st.tsr.nmodes + 1
  len_high : st.part_high.length = st.part_low.length
  len_step : st.index_step.length = st.part_low.length - 1
  low_zero : st.part_low.getD 0 0 = 0
  high_nnz : st.part_high.getD 0 0 = st.tsr.nnz
  low_lt_high : ∀ k, k < st.part_low.length →
    st.part_low.getD k 0 < st.part_high.getD k 0
  high_mono : ∀ k, k + 1 < st.part_low.length →
    st.part_high.getD (k+1) 0 ≤ st.part_high.getD k 0

/-- Statuses reachable from a successful `start` through any sequence of
`produce` calls (calls after exhaustion leave the status fixed). -/
inductive ReachableStatus : SplitStatus → Prop where
  | start (tsr : SptSparseTensor) (cuts : List Nat) (st : SplitStatus) :
      spt_StartSplitSparseTensor tsr cuts = Except.ok st → ReachableStatus st
  | produce (st : SplitStatus) : ReachableStatus st → ReachableStatus (spt_SplitCore st).2

/-- The sibling partitions the engine generates at one mode for a parent range
`[low, high)` with a fixed stored `index_step`: the descend phase creates the
first child by the cut scan, and each backtrack visit creates the next sibling
by the same scan starting where the previous one ended, until the parent range
is used up. -/
def siblingChain (arr : List Nat) (step : Nat) : Nat → Nat → Nat → List (Nat × Nat)
  | _, _, 0 => []
  | low, high, fuel+1 =>
    if low < high then
      (low, spt_findCut arr low high step) ::
        siblingChain arr step (spt_findCut arr low high step) high fuel
    else []

/-- All sibling partitions at one mode for parent range `[low, high)` when the
requested cut count is `cuts`: the stored step is the one the descend phase
computes from the distinct-value count of the parent range. -/
def siblingsAt (arr : List Nat) (cuts low high : Nat) : List (Nat × Nat) :=
  siblingChain arr (computeIndexStep (spt_distinctCount arr low high) cuts) low high (high - low)

/- ## Claim theorems: lifecycle and vectors -/

/-- Claim C2: `start(tensor, cuts_by_mode)` fails with `NoMore` iff the tensor
has zero nonzeros; otherwise it fails with `ValueError` iff the sort-key marker
differs from `nmodes - 1`; otherwise it succeeds with a status whose range
stack holds exactly the single level `[0, nnz)`. -/
theorem C2_start_behavior (tsr : SptSparseTensor) (cuts : List Nat) :
    (spt_StartSplitSparseTensor tsr cuts = Except.error SptError.noMore ↔ tsr.nnz = 0) ∧
    (tsr.nnz ≠ 0 →
      (spt_StartSplitSparseTensor tsr cuts = Except.error SptError.valueError ↔
        tsr.sortkey ≠ tsr.nmodes - 1)) ∧
    (tsr.nnz ≠ 0 → tsr.sortkey = tsr.nmodes - 1 →
      spt_StartSplitSparseTensor tsr cuts = Except.ok
        { tsr := tsr, cuts_by_mode := cuts, part_low := [0], part_high := [tsr.nnz],
          index_step := [], no_more := false }) := by
  unfold spt_StartSplitSparseTensor
  by_cases h0 : tsr.nnz = 0 <;> by_cases h1 : tsr.sortkey = tsr.nmodes - 1 <;>
    simp [h0, h1]

/-- Witness for C2 at the Scenario A fixture: nnz = 6 ≠ 0 and
sortkey = 1 = nmodes - 1, so `start` succeeds with the one-level stack. -/
theorem C2_start_behavior_witness :
    spt_StartSplitSparseTensor tsrA [3, 1] = Except.ok
      { tsr := tsrA, cuts_by_mode := [3, 1], part_low := [0], part_high := [tsrA.nnz],
        index_step := [], no_more := false } :=
  (C2_start_behavior tsrA [3, 1]).2.2 (by decide) (by decide)

/-- Claim C3: once the exhaustion flag is set, every further `produce` call
returns `NoMore` and leaves the whole status (stacks, flag, source reference)
unchanged, for any number of repeated calls. -/
theorem C3_exhaustion_idempotent (st : SplitStatus) (h : st.no_more = true) :
    (spt_SplitSparseTensor st).1 = Except.error SptError.noMore ∧
    (spt_SplitSparseTensor st).2 = st ∧
    (∀ n, produceIter n st = st) := by
  have hc : spt_SplitCore st = (Except.error SptError.noMore, st) := by
    unfold spt_SplitCore
    rw [h]
    simp
  refine ⟨?_, ?_, ?_⟩
  · simp [spt_SplitSparseTensor, hc, Except.map]
  · simp [spt_SplitSparseTensor, hc]
  · intro n
    induction n with
    | zero => rfl
    | succ n ih =>
      show produceIter n (spt_SplitSparseTensor st).2 = st
      rw [show (spt_SplitSparseTensor st).2 = st by simp [spt_SplitSparseTensor, hc]]
      exact ih

/-- Witness for C3: a concrete exhausted status stays fixed under repeated
`produce` calls. -/
theorem C3_exhaustion_idempotent_witness :
    (spt_SplitSparseTensor stExhausted).1 = Except.error SptError.noMore ∧
    produceIter 3 stExhausted = stExhausted :=
  ⟨(C3_exhaustion_idempotent stExhausted rfl).1,
   (C3_exhaustion_idempotent stExhausted rfl).2.2 3⟩

/-- Claim C6: Scenario A — the 2-mode tensor with nnz = 6, mode-0 indices
`[0,0,1,1,2,2]`, mode-1 indices `[0,1,0,1,0,1]` and `cuts_by_mode = [3,1]`
yields exactly 3 chunks of 2 nonzeros each, with source ranges
`[0,2)`, `[2,4)`, `[4,6)`, after which the engine is exhausted. -/
theorem C6_scenarioA :
    spt_StartSplitSparseTensor tsrA [3, 1] = Except.ok stA ∧
    ((runSplit 6 stA).1.map (fun c => c.1)) = [(0, 2), (2, 4), (4, 6)] ∧
    ((runSplit 6 stA).1.map (fun c => c.2.nnz)) = [2, 2, 2] ∧
    (runSplit 6 stA).2.no_more = true :=
  ⟨rfl, by decide, by decide, by decide⟩

/-- Claim C8: `finish(status)` frees the engine's own storage but performs no
write through the source-tensor reference: every field of the tensor object is
unchanged, while the status allocation is gone. -/
theorem C8_finish_frame (h : SplitHeap) :
    (spt_FinishSplitSparseTensor h).tensor.nmodes = h.tensor.nmodes ∧
    (spt_FinishSplitSparseTensor h).tensor.ndims = h.tensor.ndims ∧
    (spt_FinishSplitSparseTensor h).tensor.sortkey = h.tensor.sortkey ∧
    (spt_FinishSplitSparseTensor h).tensor.nnz = h.tensor.nnz ∧
    (spt_FinishSplitSparseTensor h).tensor.inds = h.tensor.inds ∧
    (spt_FinishSplitSparseTensor h).tensor.values = h.tensor.values ∧
    (spt_FinishSplitSparseTensor h).status = none :=
  ⟨rfl, rfl, rfl, rfl, rfl, rfl, rfl⟩

/-- Claim C9 fails on the code: `sptAppendVectorWithVector` decides whether to
grow by `cap <= len` instead of `cap <= len + append_vec->len` (compare
`sptAppendSizeVectorWithVector`, which computes `newlen` first).  Starting from
`len = 1, cap = 2` (a state `sptNewVector` can produce) and appending a vector
of length 2 leaves `len = 3 > cap = 2`, so the element writes run past the
allocation; the size-vector variant at the same input keeps `len ≤ cap`. -/
theorem C9_append_range_overflow :
    (sptAppendVectorWithVector ⟨1, 2, [0, 0]⟩ ⟨2, 2, [5, 7]⟩).len = 3 ∧
    (sptAppendVectorWithVector ⟨1, 2, [0, 0]⟩ ⟨2, 2, [5, 7]⟩).cap = 2 ∧
    ¬((sptAppendVectorWithVector ⟨1, 2, [0, 0]⟩ ⟨2, 2, [5, 7]⟩).len ≤
      (sptAppendVectorWithVector ⟨1, 2, [0, 0]⟩ ⟨2, 2, [5, 7]⟩).cap) ∧
    (sptAppendSizeVectorWithVector ⟨1, 2, [0, 0]⟩ ⟨2, 2, [5, 7]⟩).len ≤
      (sptAppendSizeVectorWithVector ⟨1, 2, [0, 0]⟩ ⟨2, 2, [5, 7]⟩).cap := by
  decide

/- ## List helpers -/

/-- `getD` of an append, inside the left list. -/
theorem listGetD_append_left {α : Type} (d : α) :
    ∀ (l l' : List α) (k : Nat), k < l.length → (l ++ l').getD k d = l.getD k d := by
  intro l
  induction l with
  | nil => intro l' k hk; simp at hk
  | cons a t ih =>
    intro l' k hk
    cases k with
    | zero => rfl
    | succ k =>
      simp only [List.cons_append, List.getD_cons_succ]
      exact ih l' k (by simpa using hk)

/-- `getD` of `l ++ [x]` at position `l.length` is `x`. -/
theorem listGetD_append_len {α : Type} (d x : α) :
    ∀ (l : List α), (l ++ [x]).getD l.length d = x := by
  intro l
  induction l with
  | nil => rfl
  | cons a t ih => simp [ih]

/-- `dropLast` preserves `getD` strictly below the last position. -/
theorem listGetD_dropLast {α : Type} (d : α) :
    ∀ (l : List α) (k : Nat), k + 1 < l.length → l.dropLast.getD k d = l.getD k d := by
  intro l
  induction l with
  | nil => intro k hk; simp at hk
  | cons a t ih =>
    intro k hk
    cases t with
    | nil => simp at hk
    | cons b t' =>
      cases k with
      | zero => rfl
      | succ k =>
        simp only [List.dropLast_cons₂, List.getD_cons_succ]
        exact ih k (by simpa using hk)

/-- `set` writes the value that `getD` then reads back. -/
theorem listGetD_set_self {α : Type} (d x : α) :
    ∀ (l : List α) (k : Nat), k < l.length → (l.set k x).getD k d = x := by
  intro l
  induction l with
  | nil => intro k hk; simp at hk
  | cons a t ih =>
    intro k hk
    cases k with
    | zero => rfl
    | succ k => exact ih k (by simpa using hk)

/-- `set` leaves every other position unchanged. -/
theorem listGetD_set_ne {α : Type} (d x : α) :
    ∀ (l : List α) (k j : Nat), j ≠ k → (l.set k x).getD j d = l.getD j d := by
  intro l
  induction l with
  | nil => intro k j _; rfl
  | cons a t ih =>
    intro k j hjk
    cases k with
    | zero =>
      cases j with
      | zero => exact absurd rfl hjk
      | succ j => rfl
    | succ k =>
      cases j with
      | zero => rfl
      | succ j => exact ih k j (by omega)

/-- `getD` after a `drop` reads the shifted position (unconditionally: both
sides fall back to the default together). -/
theorem listGetD_drop {α : Type} (d : α) :
    ∀ (l : List α) (n k : Nat), (l.drop n).getD k d = l.getD (n + k) d := by
  intro l
  induction l with
  | nil => intro n k; simp
  | cons a t ih =>
    intro n k
    cases n with
    | zero => simp
    | succ n =>
      simp only [List.drop_succ_cons]
      rw [ih n k]
      simp [Nat.succ_add]

/-- `getD` inside the taken prefix. -/
theorem listGetD_take {α : Type} (d : α) :
    ∀ (l : List α) (n k : Nat), k < n → (l.take n).getD k d = l.getD k d := by
  intro l
  induction l with
  | nil => intro n k _; simp
  | cons a t ih =>
    intro n k hk
    cases n with
    | zero => omega
    | succ n =>
      cases k with
      | zero => rfl
      | succ k =>
        simp only [List.take_succ_cons, List.getD_cons_succ]
        exact ih n k (by omega)

/-- `getD` of a mapped list, in bounds. -/
theorem listGetD_map {α β : Type} (f : α → β) (d : β) (d' : α) :
    ∀ (l : List α) (m : Nat), m < l.length → (l.map f).getD m d = f (l.getD m d') := by
  intro l
  induction l with
  | nil => intro m hm; simp at hm
  | cons a t ih =>
    intro m hm
    cases m with
    | zero => rfl
    | succ m => exact ih m (by simpa using hm)

/-- An in-bounds `getD` is a member of the list. -/
theorem listGetD_mem {α : Type} (d : α) :
    ∀ (l : List α) (m : Nat), m < l.length → l.getD m d ∈ l := by
  intro l
  induction l with
  | nil => intro m hm; simp at hm
  | cons a t ih =>
    intro m hm
    cases m with
    | zero => exact List.mem_cons_self a t
    | succ m => exact List.mem_cons_of_mem a (ih m (by simpa using hm))

/- ## Scan-loop lemmas -/

/-- The cut scan never moves backwards and consumes at most its fuel. -/
theorem cutLoop_bounds (arr : List Nat) (step : Nat) :
    ∀ (fuel i last count : Nat),
      i ≤ cutLoop arr step last count i fuel ∧ cutLoop arr step last count i fuel ≤ i + fuel := by
  intro fuel
  induction fuel with
  | zero => intro i last count; simp [cutLoop]
  | succ f ih =>
    intro i last count
    simp only [cutLoop]
    by_cases hx : arr.getD i 0 ≠ last
    · rw [if_pos hx]
      by_cases hc : count = step
      · rw [if_pos hc]; omega
      · rw [if_neg hc]
        have := ih (i+1) (arr.getD i 0) (count+1)
        omega
    · rw [if_neg hx]
      have := ih (i+1) last count
      omega

/-- The transition count never decreases. -/
theorem countLoop_le (arr : List Nat) :
    ∀ (fuel last count i : Nat), count ≤ countLoop arr last count i fuel := by
  intro fuel
  induction fuel with
  | zero => intro last count i; simp [countLoop]
  | succ f ih =>
    intro last count i
    simp only [countLoop]
    by_cases hx : arr.getD i 0 ≠ last
    · rw [if_pos hx]
      have := ih (arr.getD i 0) (count+1) (i+1)
      omega
    · rw [if_neg hx]
      exact ih last count (i+1)

/-- The transition count is an accumulator: shifting the initial count shifts
the result. -/
theorem countLoop_add (arr : List Nat) :
    ∀ (fuel last count dlt i : Nat),
      countLoop arr last (count + dlt) i fuel = countLoop arr last count i fuel + dlt := by
  intro fuel
  induction fuel with
  | zero => intro last count dlt i; simp [countLoop]
  | succ f ih =>
    intro last count dlt i
    simp only [countLoop]
    by_cases hx : arr.getD i 0 ≠ last
    · rw [if_pos hx, if_pos hx]
      have : count + dlt + 1 = count + 1 + dlt := by omega
      rw [this]
      exact ih (arr.getD i 0) (count+1) dlt (i+1)
    · rw [if_neg hx, if_neg hx]
      exact ih last count dlt (i+1)

/-- Bridge between the cut scan and the transition-counting scan run from the
same state over the same window: if the total transition count stays within the
step budget, the cut scan runs to the window's end; otherwise it stops strictly
inside, exactly `step` transitions in, and the rest of the window holds the
remaining distinct values. -/
theorem cutLoop_countLoop (arr : List Nat) (step : Nat) :
    ∀ (fuel i last count : Nat), 1 ≤ count → count ≤ step →
      (countLoop arr last count i fuel ≤ step →
        cutLoop arr step last count i fuel = i + fuel) ∧
      (step < countLoop arr last count i fuel →
        i ≤ cutLoop arr step last count i fuel ∧
        cutLoop arr step last count i fuel < i + fuel ∧
        countLoop arr last count i (cutLoop arr step last count i fuel - i) = step ∧
        spt_distinctCount arr (cutLoop arr step last count i fuel) (i + fuel) =
          countLoop arr last count i fuel - step) := by
  intro fuel
  induction fuel with
  | zero =>
    intro i last count h1 h2
    constructor
    · intro _; simp [cutLoop]
    · intro hlt; simp [countLoop] at hlt; omega
  | succ f ih =>
    intro i last count h1 h2
    by_cases hx : arr.getD i 0 ≠ last
    · by_cases hc : count = step
      · -- the scan breaks right here
        have hcut : cutLoop arr step last count i (f+1) = i := by
          simp only [cutLoop]; rw [if_pos hx, if_pos hc]
        have hcnt : countLoop arr last count i (f+1)
            = countLoop arr (arr.getD i 0) (count+1) (i+1) f := by
          simp only [countLoop]; rw [if_pos hx]
        have hge : count + 1 ≤ countLoop arr (arr.getD i 0) (count+1) (i+1) f :=
          countLoop_le arr f (arr.getD i 0) (count+1) (i+1)
        constructor
        · intro hle; rw [hcnt] at hle; omega
        · intro _
          refine ⟨by omega, by omega, ?_, ?_⟩
          · rw [hcut]
            have h0 : i - i = 0 := by omega
            rw [h0]
            simpa [countLoop] using hc
          · rw [hcut, hcnt]
            unfold spt_distinctCount
            have he : i + (f+1) - i = f + 1 := by omega
            rw [he]
            have h1' : countLoop arr (arr.getD i 0) 1 i (f+1)
                = countLoop arr (arr.getD i 0) 1 (i+1) f := by
              simp only [countLoop]; rw [if_neg (by simp)]
            have h2' := countLoop_add arr f (arr.getD i 0) 1 count (i+1)
            rw [Nat.add_comm 1 count] at h2'
            omega
      · -- a transition, but the budget is not exhausted yet
        have hcount : count < step := lt_of_le_of_ne h2 hc
        have hcut : cutLoop arr step last count i (f+1)
            = cutLoop arr step (arr.getD i 0) (count+1) (i+1) f := by
          simp only [cutLoop]; rw [if_pos hx, if_neg hc]
        have hcnt : countLoop arr last count i (f+1)
            = countLoop arr (arr.getD i 0) (count+1) (i+1) f := by
          simp only [countLoop]; rw [if_pos hx]
        have IH := ih (i+1) (arr.getD i 0) (count+1) (by omega) (by omega)
        constructor
        · intro hle
          rw [hcnt] at hle
          rw [hcut, IH.1 hle]
          omega
        · intro hlt
          rw [hcnt] at hlt
          obtain ⟨ha, hb, hc2, hd2⟩ := IH.2 hlt
          refine ⟨by rw [hcut]; omega, by rw [hcut]; omega, ?_, ?_⟩
          · rw [hcut]
            have hr : cutLoop arr step (arr.getD i 0) (count+1) (i+1) f - i
                = (cutLoop arr step (arr.getD i 0) (count+1) (i+1) f - (i+1)) + 1 := by omega
            rw [hr]
            simp only [countLoop]
            rw [if_pos hx]
            exact hc2
          · rw [hcut, hcnt]
            have he : i + (f+1) = (i+1) + f := by omega
            rw [he]
            exact hd2
    · -- no transition at this position
      have hcut : cutLoop arr step last count i (f+1)
          = cutLoop arr step last count (i+1) f := by
        simp only [cutLoop]; rw [if_neg hx]
      have hcnt : countLoop arr last count i (f+1)
          = countLoop arr last count (i+1) f := by
        simp only [countLoop]; rw [if_neg hx]
      have IH := ih (i+1) last count h1 h2
      constructor
      · intro hle
        rw [hcnt] at hle
        rw [hcut, IH.1 hle]
        omega
      · intro hlt
        rw [hcnt] at hlt
        obtain ⟨ha, hb, hc2, hd2⟩ := IH.2 hlt
        refine ⟨by rw [hcut]; omega, by rw [hcut]; omega, ?_, ?_⟩
        · rw [hcut]
          have hr : cutLoop arr step last count (i+1) f - i
              = (cutLoop arr step last count (i+1) f - (i+1)) + 1 := by omega
          rw [hr]
          simp only [countLoop]
          rw [if_neg hx]
          exact hc2
        · rw [hcut, hcnt]
          have he : i + (f+1) = (i+1) + f := by omega
          rw [he]
          exact hd2

/-- On a nonempty range the cut scan moves strictly forward and never passes
the range's end: the first scanned position never counts as a transition. -/
theorem spt_findCut_bounds (arr : List Nat) (low high step : Nat) (h : low < high) :
    low < spt_findCut arr low high step ∧ spt_findCut arr low high step ≤ high := by
  unfold spt_findCut
  have hf : high - low = (high - low - 1) + 1 := by omega
  rw [hf]
  simp only [cutLoop]
  rw [if_neg (by simp)]
  have := cutLoop_bounds arr step (high - low - 1) (low+1) (arr.getD low 0) 1
  omega

/-- Every distinct-value count is at least 1 (the scan starts at 1). -/
theorem spt_distinctCount_pos (arr : List Nat) (low high : Nat) :
    1 ≤ spt_distinctCount arr low high := by
  unfold spt_distinctCount
  exact countLoop_le arr (high - low) (arr.getD low 0) 1 low

/-- The cut scan against the distinct-value count of its range: with
`dc = spt_distinctCount arr low high`, if `dc ≤ step` the scan reaches `high`;
otherwise it stops strictly inside and the tail `[cut, high)` holds exactly
`dc - step` distinct values. -/
theorem spt_findCut_spec (arr : List Nat) (low high step : Nat)
    (hlh : low < high) (hs : 1 ≤ step) :
    (spt_distinctCount arr low high ≤ step → spt_findCut arr low high step = high) ∧
    (step < spt_distinctCount arr low high →
      low < spt_findCut arr low high step ∧
      spt_findCut arr low high step < high ∧
      spt_distinctCount arr (spt_findCut arr low high step) high =
        spt_distinctCount arr low high - step) := by
  have hb := spt_findCut_bounds arr low high step hlh
  have H := cutLoop_countLoop arr step (high - low) low (arr.getD low 0) 1 le_rfl hs
  have he : low + (high - low) = high := by omega
  rw [he] at H
  constructor
  · intro hle
    have h1 := H.1 hle
    unfold spt_findCut
    omega
  · intro hlt
    obtain ⟨ha, hb2, hc2, hd2⟩ := H.2 hlt
    unfold spt_findCut at hb ⊢
    exact ⟨hb.1, by omega, hd2⟩

/-- Stage-1 (descend) specification: from stacks of depth `mode+1` whose top
range `[a, h0)` is nonempty, `fuel` iterations push one level per remaining
mode; existing levels are untouched, every new level's low is `a`, the new
highs form a chain of nonempty sub-ranges shrinking from the old top, and each
new `index_step` entry is the step formula applied to that level's range. -/
theorem descendLoop_spec (tsr : SptSparseTensor) (cuts : List Nat) :
    ∀ (fuel mode : Nat) (pl ph istep : List Nat),
      pl.length = mode + 1 → ph.length = mode + 1 → istep.length = mode →
      pl.getD mode 0 < ph.getD mode 0 →
      ∃ pl2 ph2 istep2,
        descendLoop tsr cuts fuel mode (pl, ph, istep) = (pl2, ph2, istep2) ∧
        pl2.length = mode + 1 + fuel ∧ ph2.length = mode + 1 + fuel ∧
        istep2.length = mode + fuel ∧
        (∀ k, k ≤ mode → pl2.getD k 0 = pl.getD k 0 ∧ ph2.getD k 0 = ph.getD k 0) ∧
        (∀ k, k < mode → istep2.getD k 0 = istep.getD k 0) ∧
        (∀ k, mode < k → k ≤ mode + fuel → pl2.getD k 0 = pl.getD mode 0) ∧
        (∀ k, mode < k → k ≤ mode + fuel →
          pl.getD mode 0 < ph2.getD k 0 ∧ ph2.getD k 0 ≤ ph2.getD (k-1) 0) ∧
        (∀ k, mode ≤ k → k < mode + fuel →
          istep2.getD k 0 =
            computeIndexStep
              (spt_distinctCount (tsr.inds.getD k []) (pl2.getD k 0) (ph2.getD k 0))
              (cuts.getD k 0)) := by
  intro fuel
  induction fuel with
  | zero =>
    intro mode pl ph istep h1 h2 h3 h4
    refine ⟨pl, ph, istep, rfl, by omega, by omega, by omega, ?_, ?_, ?_, ?_, ?_⟩
    · intro k _; exact ⟨rfl, rfl⟩
    · intro k _; rfl
    · intro k hk1 hk2; omega
    · intro k hk1 hk2; omega
    · intro k hk1 hk2; omega
  | succ f ih =>
    intro mode pl ph istep h1 h2 h3 h4
    simp only [descendLoop]
    set low := pl.getD mode 0 with hlow
    set high := ph.getD mode 0 with hhigh
    set arr := tsr.inds.getD mode [] with harr
    set s := computeIndexStep (spt_distinctCount arr low high) (cuts.getD mode 0) with hs
    set i := spt_findCut arr low high ((istep ++ [s]).getD mode 0) with hi
    have hstep_at : (istep ++ [s]).getD mode 0 = s := by
      rw [← h3]; exact listGetD_append_len 0 s istep
    have hcutb := spt_findCut_bounds arr low high ((istep ++ [s]).getD mode 0) h4
    have hplL : (pl ++ [low]).length = (mode + 1) + 1 := by simp [h1]
    have hphL : (ph ++ [i]).length = (mode + 1) + 1 := by simp [h2]
    have hisL : (istep ++ [s]).length = mode + 1 := by simp [h3]
    have hpl_top : (pl ++ [low]).getD (mode+1) 0 = low := by
      rw [← h1]; exact listGetD_append_len 0 low pl
    have hph_top : (ph ++ [i]).getD (mode+1) 0 = i := by
      rw [← h2]; exact listGetD_append_len 0 i ph
    have htop : (pl ++ [low]).getD (mode+1) 0 < (ph ++ [i]).getD (mode+1) 0 := by
      rw [hpl_top, hph_top]; exact hcutb.1
    obtain ⟨pl2, ph2, istep2, heq, hL1, hL2, hL3, hpres, hpresS, hnewlow, hchain, hstep⟩ :=
      ih (mode+1) (pl ++ [low]) (ph ++ [i]) (istep ++ [s]) hplL hphL hisL htop
    refine ⟨pl2, ph2, istep2, heq, by omega, by omega, by omega, ?_, ?_, ?_, ?_, ?_⟩
    · -- old levels preserved
      intro k hk
      have h' := hpres k (by omega)
      constructor
      · rw [h'.1]; exact listGetD_append_left 0 pl [low] k (by omega)
      · rw [h'.2]; exact listGetD_append_left 0 ph [i] k (by omega)
    · -- old steps preserved
      intro k hk
      have h' := hpresS k (by omega)
      rw [h']; exact listGetD_append_left 0 istep [s] k (by omega)
    · -- new lows all equal the old top low
      intro k hk1 hk2
      rcases Nat.lt_or_ge (mode+1) k with hgt | hle
      · rw [hnewlow k hgt (by omega), hpl_top]
      · have hk' : k = mode + 1 := by omega
        subst hk'
        rw [(hpres (mode+1) le_rfl).1, hpl_top]
    · -- new highs: nonempty and shrinking
      intro k hk1 hk2
      rcases Nat.lt_or_ge (mode+1) k with hgt | hle
      · have h' := hchain k hgt (by omega)
        rw [hpl_top] at h'
        exact h'
      · have hk' : k = mode + 1 := by omega
        subst hk'
        constructor
        · rw [(hpres (mode+1) le_rfl).2, hph_top]; exact hcutb.1
        · have e1 : ph2.getD (mode+1) 0 = i := by rw [(hpres (mode+1) le_rfl).2, hph_top]
          have e2 : ph2.getD mode 0 = high := by
            rw [(hpres mode (by omega)).2]
            exact listGetD_append_left 0 ph [i] mode (by omega)
          have : mode + 1 - 1 = mode := by omega
          rw [e1, this, e2]
          exact hcutb.2
    · -- the step formula at every new level
      intro k hk1 hk2
      rcases Nat.lt_or_ge k (mode+1) with hlt | hge
      · have hk' : k = mode := by omega
        subst hk'
        have e0 : istep2.getD k 0 = s := by
          rw [hpresS k (by omega)]; exact hstep_at
        have e1 : pl2.getD k 0 = low := by
          rw [(hpres k (by omega)).1]
          exact listGetD_append_left 0 pl [low] k (by omega)
        have e2 : ph2.getD k 0 = high := by
          rw [(hpres k (by omega)).2]
          exact listGetD_append_left 0 ph [i] k (by omega)
        rw [e0, e1, e2]
      · exact hstep k hge (by omega)

/-- Stage-3 (backtrack) specification: called with stacks of depth `m+1` whose
range ends shrink with depth, the backtrack walk either (left) pops everything
down to level 0 and reports no next chunk — possible only when every stacked
end equals the just-produced cut end — or (right) stops at the deepest mode
`mm` with range left over, keeps levels `0..mm` intact and overwrites level
`mm+1` with the next sibling range, which starts exactly at the produced cut
end `ph[m]` and is nonempty inside the parent range. -/
theorem backtrackLoop_spec (tsr : SptSparseTensor) :
    ∀ (m : Nat) (pl ph istep : List Nat),
      pl.length = m + 1 → ph.length = m + 1 → istep.length = m →
      (∀ k, k + 1 ≤ m → ph.getD (k+1) 0 ≤ ph.getD k 0) →
      (∃ R, backtrackLoop tsr m (pl, ph, istep) = (R, false) ∧
        R.1.length = 1 ∧ R.2.1.length = 1 ∧ R.2.2.length = 0 ∧
        R.1.getD 0 0 = pl.getD 0 0 ∧ R.2.1.getD 0 0 = ph.getD 0 0 ∧
        ph.getD m 0 = ph.getD 0 0) ∨
      (∃ R mm, backtrackLoop tsr m (pl, ph, istep) = (R, true) ∧
        mm + 1 ≤ m ∧
        R.1.length = mm + 2 ∧ R.2.1.length = mm + 2 ∧ R.2.2.length = mm + 1 ∧
        (∀ k, k ≤ mm → R.1.getD k 0 = pl.getD k 0 ∧ R.2.1.getD k 0 = ph.getD k 0 ∧
          R.2.2.getD k 0 = istep.getD k 0) ∧
        R.1.getD (mm+1) 0 = ph.getD m 0 ∧
        ph.getD m 0 < R.2.1.getD (mm+1) 0 ∧
        R.2.1.getD (mm+1) 0 ≤ ph.getD mm 0) := by
  intro m
  induction m with
  | zero =>
    intro pl ph istep h1 h2 h3 _
    left
    exact ⟨(pl, ph, istep), rfl, h1, h2, h3, rfl, rfl, rfl⟩
  | succ m ih =>
    intro pl ph istep h1 h2 h3 hanti
    simp only [backtrackLoop]
    by_cases hge : ph.getD (m+1) 0 ≥ ph.getD m 0
    · -- this mode is exhausted: pop and continue
      rw [if_pos hge]
      have heq2 : ph.getD (m+1) 0 = ph.getD m 0 :=
        Nat.le_antisymm (hanti m (by omega)) hge
      have hd1 : pl.dropLast.length = m + 1 := by
        rw [List.length_dropLast, h1]; omega
      have hd2 : ph.dropLast.length = m + 1 := by
        rw [List.length_dropLast, h2]; omega
      have hd3 : istep.dropLast.length = m := by
        rw [List.length_dropLast, h3]; omega
      have hanti' : ∀ k, k + 1 ≤ m → ph.dropLast.getD (k+1) 0 ≤ ph.dropLast.getD k 0 := by
        intro k hk
        rw [listGetD_dropLast 0 ph (k+1) (by omega), listGetD_dropLast 0 ph k (by omega)]
        exact hanti k (by omega)
      rcases ih pl.dropLast ph.dropLast istep.dropLast hd1 hd2 hd3 hanti' with
        ⟨R, hR, l1, l2, l3, e1, e2, e3⟩ | ⟨R, mm, hR, hmm, l1, l2, l3, pres, f1, f2, f3⟩
      · left
        refine ⟨R, hR, l1, l2, l3, ?_, ?_, ?_⟩
        · rw [e1, listGetD_dropLast 0 pl 0 (by omega)]
        · rw [e2, listGetD_dropLast 0 ph 0 (by omega)]
        · rw [heq2, ← listGetD_dropLast 0 ph m (by omega), e3,
            listGetD_dropLast 0 ph 0 (by omega)]
      · right
        refine ⟨R, mm, hR, by omega, l1, l2, l3, ?_, ?_, ?_, ?_⟩
        · intro k hk
          obtain ⟨p1, p2, p3⟩ := pres k hk
          refine ⟨?_, ?_, ?_⟩
          · rw [p1, listGetD_dropLast 0 pl k (by omega)]
          · rw [p2, listGetD_dropLast 0 ph k (by omega)]
          · rw [p3, listGetD_dropLast 0 istep k (by omega)]
        · rw [f1, listGetD_dropLast 0 ph m (by omega), heq2]
        · rw [heq2, ← listGetD_dropLast 0 ph m (by omega)]
          exact f2
        · rw [← listGetD_dropLast 0 ph mm (by omega)]
          exact f3
    · -- range left at this mode: position the next sibling here
      rw [if_neg hge]
      have hlt : ph.getD (m+1) 0 < ph.getD m 0 := by omega
      have hcut := spt_findCut_bounds (tsr.inds.getD m [])
        (ph.getD (m+1) 0) (ph.getD m 0) (istep.getD m 0) hlt
      right
      refine ⟨_, m, rfl, le_rfl, ?_, ?_, ?_, ?_, ?_, ?_, ?_⟩
      · rw [List.length_set, h1]
      · rw [List.length_set, h2]
      · exact h3
      · intro k hk
        refine ⟨?_, ?_, rfl⟩
        · exact listGetD_set_ne 0 _ pl (m+1) k (by omega)
        · exact listGetD_set_ne 0 _ ph (m+1) k (by omega)
      · exact listGetD_set_self 0 _ pl (m+1) (by omega)
      · rw [listGetD_set_self 0 _ ph (m+1) (by omega)]
        exact hcut.1
      · rw [listGetD_set_self 0 _ ph (m+1) (by omega)]
        exact hcut.2

/-- Unfolding of a successful `produce` call in terms of its two phases. -/
theorem spt_SplitCore_eq (st : SplitStatus) (hNo : st.no_more = false)
    (pl2 ph2 istep2 : List Nat)
    (heq : descendLoop st.tsr st.cuts_by_mode (st.tsr.nmodes - (st.part_low.length - 1))
      (st.part_low.length - 1) (st.part_low, st.part_high, st.index_step)
      = (pl2, ph2, istep2)) :
    spt_SplitCore st =
      (Except.ok ((pl2.getD st.tsr.nmodes 0, ph2.getD st.tsr.nmodes 0),
         materializeChunk st.tsr (pl2.getD st.tsr.nmodes 0) (ph2.getD st.tsr.nmodes 0)),
       { st with
         part_low := (backtrackLoop st.tsr st.tsr.nmodes (pl2, ph2, istep2)).1.1,
         part_high := (backtrackLoop st.tsr st.tsr.nmodes (pl2, ph2, istep2)).1.2.1,
         index_step := (backtrackLoop st.tsr st.tsr.nmodes (pl2, ph2, istep2)).1.2.2,
         no_more := !(backtrackLoop st.tsr st.tsr.nmodes (pl2, ph2, istep2)).2 }) := by
  unfold spt_SplitCore
  rw [hNo]
  simp only [Bool.false_eq_true, if_false]
  rw [heq]

/-- One successful `produce` call from a status satisfying the stack invariant
with the exhaustion flag clear: the produced chunk is materialized from
`[topLow st, c)` for a cut end `c` with `topLow st < c ≤ nnz`; the source
tensor and the cut counts are untouched; the stack invariant is preserved; and
either the exhaustion flag gets set with `c = nnz`, or the next chunk is
positioned to start exactly at `c`. -/
theorem produce_step (st : SplitStatus) (hInv : StackInv st) (hNo : st.no_more = false) :
    ∃ c st2,
      spt_SplitCore st =
        (Except.ok ((topLow st, c), materializeChunk st.tsr (topLow st) c), st2) ∧
      topLow st < c ∧ c ≤ st.tsr.nnz ∧
      st2.tsr = st.tsr ∧ st2.cuts_by_mode = st.cuts_by_mode ∧
      StackInv st2 ∧
      (st2.no_more = true → c = st.tsr.nnz) ∧
      (st2.no_more = false → topLow st2 = c) := by
  obtain ⟨nnz_pos, depth_pos, depth_le, len_high, len_step, low_zero, high_nnz,
    low_lt_high, high_mono⟩ := hInv
  set mode := st.part_low.length - 1 with hmode
  have hd1 : st.part_low.length = mode + 1 := by omega
  have hd2 : st.part_high.length = mode + 1 := by omega
  have hd3 : st.index_step.length = mode := by omega
  have hmodeN : mode ≤ st.tsr.nmodes := by omega
  have htop : st.part_low.getD mode 0 < st.part_high.getD mode 0 :=
    low_lt_high mode (by omega)
  obtain ⟨pl2, ph2, istep2, heq, hL1, hL2, hL3, hpres, hpresS, hnewlow, hchain, hstep⟩ :=
    descendLoop_spec st.tsr st.cuts_by_mode (st.tsr.nmodes - mode) mode
      st.part_low st.part_high st.index_step hd1 hd2 hd3 htop
  have hl1' : pl2.length = st.tsr.nmodes + 1 := by omega
  have hl2' : ph2.length = st.tsr.nmodes + 1 := by omega
  have hl3' : istep2.length = st.tsr.nmodes := by omega
  have hA : topLow st = st.part_low.getD mode 0 := rfl
  have ha_cutlow : pl2.getD st.tsr.nmodes 0 = topLow st := by
    rcases Nat.eq_or_lt_of_le hmodeN with hEq | hLt
    · rw [hA, ← hEq]
      exact (hpres mode le_rfl).1
    · rw [hA]
      exact hnewlow st.tsr.nmodes hLt (by omega)
  have hanti : ∀ k, k + 1 ≤ st.tsr.nmodes → ph2.getD (k+1) 0 ≤ ph2.getD k 0 := by
    intro k hk
    rcases Nat.lt_or_ge k mode with hlt | hge
    · rw [(hpres (k+1) (by omega)).2, (hpres k (by omega)).2]
      exact high_mono k (by omega)
    · have h' := (hchain (k+1) (by omega) (by omega)).2
      have he : k + 1 - 1 = k := by omega
      rwa [he] at h'
  have hlth : ∀ k, k ≤ st.tsr.nmodes → pl2.getD k 0 < ph2.getD k 0 := by
    intro k hk
    rcases Nat.lt_or_ge mode k with hlt | hge
    · have h1' := hnewlow k hlt (by omega)
      have h2' := (hchain k hlt (by omega)).1
      omega
    · rw [(hpres k hge).1, (hpres k hge).2]
      exact low_lt_high k (by omega)
  have hzero : pl2.getD 0 0 = 0 := by
    rw [(hpres 0 (by omega)).1]; exact low_zero
  have hnnz0 : ph2.getD 0 0 = st.tsr.nnz := by
    rw [(hpres 0 (by omega)).2]; exact high_nnz
  have hle_nnz : ∀ k, k ≤ st.tsr.nmodes → ph2.getD k 0 ≤ st.tsr.nnz := by
    intro k
    induction k with
    | zero => intro _; rw [hnnz0]
    | succ k ihk =>
      intro hk
      have h1' := hanti k (by omega)
      have h2' := ihk (by omega)
      omega
  have hc_pos : topLow st < ph2.getD st.tsr.nmodes 0 := by
    have := hlth st.tsr.nmodes le_rfl
    rwa [ha_cutlow] at this
  have hc_le : ph2.getD st.tsr.nmodes 0 ≤ st.tsr.nnz := hle_nnz st.tsr.nmodes le_rfl
  have hcore := spt_SplitCore_eq st hNo pl2 ph2 istep2 heq
  rw [ha_cutlow] at hcore
  rcases backtrackLoop_spec st.tsr st.tsr.nmodes pl2 ph2 istep2 hl1' hl2' hl3' hanti with
    ⟨R, hR, l1, l2, l3, e1, e2, e3⟩ | ⟨R, mm, hR, hmm, l1, l2, l3, pres, f1, f2, f3⟩
  · -- backtrack popped everything: engine exhausted, cut end is nnz
    rw [hR] at hcore
    refine ⟨ph2.getD st.tsr.nmodes 0,
      { st with part_low := R.1, part_high := R.2.1, index_step := R.2.2,
                no_more := true },
      hcore, hc_pos, hc_le, rfl, rfl, ?_, ?_, ?_⟩
    · refine ⟨nnz_pos, ?_, ?_, ?_, ?_, ?_, ?_, ?_, ?_⟩
      · show 1 ≤ R.1.length; omega
      · show R.1.length ≤ st.tsr.nmodes + 1; omega
      · show R.2.1.length = R.1.length; omega
      · show R.2.2.length = R.1.length - 1; omega
      · show R.1.getD 0 0 = 0
        rw [e1]; exact hzero
      · show R.2.1.getD 0 0 = st.tsr.nnz
        rw [e2]; exact hnnz0
      · show ∀ k, k < R.1.length → R.1.getD k 0 < R.2.1.getD k 0
        intro k hk
        have hk0 : k = 0 := by omega
        subst hk0
        rw [e1, e2, hzero, hnnz0]
        exact nnz_pos
      · show ∀ k, k + 1 < R.1.length → R.2.1.getD (k+1) 0 ≤ R.2.1.getD k 0
        intro k hk; omega
    · intro _
      rw [e3, hnnz0]
    · intro h
      simp at h
  · -- backtrack positioned the next sibling at level mm+1
    rw [hR] at hcore
    refine ⟨ph2.getD st.tsr.nmodes 0,
      { st with part_low := R.1, part_high := R.2.1, index_step := R.2.2,
                no_more := false },
      hcore, hc_pos, hc_le, rfl, rfl, ?_, ?_, ?_⟩
    · refine ⟨nnz_pos, ?_, ?_, ?_, ?_, ?_, ?_, ?_, ?_⟩
      · show 1 ≤ R.1.length; omega
      · show R.1.length ≤ st.tsr.nmodes + 1; omega
      · show R.2.1.length = R.1.length; omega
      · show R.2.2.length = R.1.length - 1; omega
      · show R.1.getD 0 0 = 0
        rw [(pres 0 (by omega)).1]; exact hzero
      · show R.2.1.getD 0 0 = st.tsr.nnz
        rw [(pres 0 (by omega)).2.1]; exact hnnz0
      · show ∀ k, k < R.1.length → R.1.getD k 0 < R.2.1.getD k 0
        intro k hk
        rcases Nat.lt_or_ge k (mm+1) with hlt | hge
        · rw [(pres k (by omega)).1, (pres k (by omega)).2.1]
          exact hlth k (by omega)
        · have hk1 : k = mm + 1 := by omega
          subst hk1
          rw [f1]
          exact f2
      · show ∀ k, k + 1 < R.1.length → R.2.1.getD (k+1) 0 ≤ R.2.1.getD k 0
        intro k hk
        rcases Nat.lt_or_ge (k+1) (mm+1) with hlt | hge
        · rw [(pres (k+1) (by omega)).2.1, (pres k (by omega)).2.1]
          exact hanti k (by omega)
        · have hk1 : k = mm := by omega
          rw [hk1, (pres mm le_rfl).2.1]
          exact f3
    · intro h
      simp at h
    · intro _
      show R.1.getD (R.1.length - 1) 0 = ph2.getD st.tsr.nmodes 0
      have e : R.1.length - 1 = mm + 1 := by omega
      rw [e]
      exact f1

/-- A successful `start` establishes the stack invariant, clears the flag, and
positions the first chunk at 0. -/
theorem start_ok_inv (tsr : SptSparseTensor) (cuts : List Nat) (st : SplitStatus)
    (h : spt_StartSplitSparseTensor tsr cuts = Except.ok st) :
    StackInv st ∧ st.no_more = false ∧ topLow st = 0 := by
  unfold spt_StartSplitSparseTensor at h
  by_cases h0 : tsr.nnz = 0
  · rw [if_pos h0] at h
    simp at h
  · rw [if_neg h0] at h
    by_cases h1 : tsr.sortkey ≠ tsr.nmodes - 1
    · rw [if_pos h1] at h
      simp at h
    · rw [if_neg h1] at h
      injection h with hst
      subst hst
      refine ⟨⟨by show 0 < tsr.nnz; omega, by simp, by simp, by simp, by simp,
        rfl, rfl, ?_, ?_⟩, rfl, rfl⟩
      · intro k hk
        simp at hk
        subst hk
        show 0 < tsr.nnz
        omega
      · intro k hk
        simp at hk

/-- Every reachable status satisfies the stack invariant. -/
theorem reachable_inv (st : SplitStatus) (h : ReachableStatus st) : StackInv st := by
  induction h with
  | start tsr cuts st h0 => exact (start_ok_inv tsr cuts st h0).1
  | produce st0 h0 ih =>
    by_cases hno : st0.no_more = true
    · have hfix : (spt_SplitCore st0).2 = st0 := by
        unfold spt_SplitCore
        rw [hno]
        rfl
      rw [hfix]
      exact ih
    · have hno' : st0.no_more = false := by
        revert hno; cases st0.no_more <;> simp
      obtain ⟨c, st2, hcore, _, _, _, _, hInv2, _, _⟩ := produce_step st0 ih hno'
      rw [hcore]
      exact hInv2

/-- A run started on an exhausted status stops immediately. -/
theorem runSplit_exhausted (st : SplitStatus) (h : st.no_more = true) :
    ∀ fuel, runSplit fuel st = ([], st) := by
  intro fuel
  cases fuel with
  | zero => rfl
  | succ f =>
    have hc : spt_SplitCore st = (Except.error SptError.noMore, st) := by
      unfold spt_SplitCore
      rw [h]
      rfl
    simp [runSplit, hc]

/-- The top of a valid status lies strictly below `nnz`. -/
theorem stackInv_topLow_lt (st : SplitStatus) (hInv : StackInv st) :
    topLow st < st.tsr.nnz := by
  have hle : ∀ k, k < st.part_low.length → st.part_high.getD k 0 ≤ st.tsr.nnz := by
    intro k
    induction k with
    | zero => intro _; rw [hInv.high_nnz]
    | succ k ih =>
      intro hk
      have h1 := hInv.high_mono k (by omega)
      have h2 := ih (by omega)
      omega
  have hd := hInv.depth_pos
  have h1 := hInv.low_lt_high (st.part_low.length - 1) (by omega)
  have h2 := hle (st.part_low.length - 1) (by omega)
  have h3 : topLow st = st.part_low.getD (st.part_low.length - 1) 0 := rfl
  omega

/-- Driving a valid, non-exhausted status with enough fuel produces ranges
that tile `[topLow st, nnz)` consecutively and ends exhausted. -/
theorem runSplit_spec : ∀ (fuel : Nat) (st : SplitStatus), StackInv st →
    st.no_more = false → st.tsr.nnz - topLow st ≤ fuel →
    chainFrom (topLow st) ((runSplit fuel st).1.map (fun c => c.1)) st.tsr.nnz = true ∧
    (runSplit fuel st).2.no_more = true := by
  intro fuel
  induction fuel with
  | zero =>
    intro st hInv hNo hf
    exfalso
    have := stackInv_topLow_lt st hInv
    omega
  | succ f ih =>
    intro st hInv hNo hf
    obtain ⟨c, st2, hcore, hlt, hle, htsr, _, hInv2, hflag, hpos⟩ := produce_step st hInv hNo
    have hrun : runSplit (f+1) st =
        (((topLow st, c), materializeChunk st.tsr (topLow st) c) :: (runSplit f st2).1,
         (runSplit f st2).2) := by
      simp [runSplit, hcore]
    rw [hrun]
    by_cases h2 : st2.no_more = true
    · have hcnnz := hflag h2
      rw [runSplit_exhausted st2 h2 f]
      constructor
      · have hlt2 : topLow st < st.tsr.nnz := by omega
        simp [chainFrom, hlt, hlt2, hcnnz]
      · exact h2
    · have h2' : st2.no_more = false := by
        revert h2; cases st2.no_more <;> simp
      have hfuel2 : st2.tsr.nnz - topLow st2 ≤ f := by
        rw [hpos h2', htsr]
        omega
      have hIH := ih st2 hInv2 h2' hfuel2
      have hch := hIH.1
      rw [hpos h2', htsr] at hch
      constructor
      · simp only [List.map_cons, chainFrom, Bool.and_eq_true, beq_self_eq_true,
          decide_eq_true_eq]
        exact ⟨⟨trivial, hlt⟩, hch⟩
      · exact hIH.2

/-- Claim C1: for every tensor with nonzeros and valid sort-key marker, and
every per-mode sequence of positive cut counts, driving the engine from
`start` through `produce` until `NoMore` yields chunks whose source nnz ranges
are consecutive, nonempty and increasing: the first starts at 0, each next
starts where the previous ended, and the last ends at `nnz` — no gaps, no
overlaps. -/
theorem C1_chunks_tile (tsr : SptSparseTensor) (cuts : List Nat)
    (h1 : 0 < tsr.nnz) (h2 : tsr.sortkey = tsr.nmodes - 1)
    (_h3 : cuts.length = tsr.nmodes) (_h4 : ∀ c ∈ cuts, 0 < c) :
    ∃ st0, spt_StartSplitSparseTensor tsr cuts = Except.ok st0 ∧
      chainFrom 0 ((runSplit tsr.nnz st0).1.map (fun c => c.1)) tsr.nnz = true ∧
      (runSplit tsr.nnz st0).2.no_more = true := by
  have hok : spt_StartSplitSparseTensor tsr cuts = Except.ok (startStatus tsr cuts) := by
    unfold spt_StartSplitSparseTensor startStatus
    rw [if_neg (by omega), if_neg (by simp [h2])]
  obtain ⟨hInv, hNo, hTop⟩ := start_ok_inv tsr cuts _ hok
  have hfuel : (startStatus tsr cuts).tsr.nnz - topLow (startStatus tsr cuts) ≤ tsr.nnz := by
    rw [hTop]
    show tsr.nnz - 0 ≤ tsr.nnz
    omega
  have hmain := runSplit_spec tsr.nnz _ hInv hNo hfuel
  rw [hTop] at hmain
  exact ⟨_, hok, hmain.1, hmain.2⟩

/-- Witness for C1: the Scenario A tensor with cuts `[3, 1]`. -/
theorem C1_chunks_tile_witness :
    chainFrom 0 ((runSplit tsrA.nnz stA).1.map (fun c => c.1)) tsrA.nnz = true ∧
    (runSplit tsrA.nnz stA).2.no_more = true := by
  obtain ⟨st0, hok, hch, hnm⟩ :=
    C1_chunks_tile tsrA [3, 1] (by decide) (by decide) (by decide) (by decide)
  have hsame : Except.ok (ε := SptError) stA = Except.ok st0 := by
    rw [← hok]
    rfl
  have heq : stA = st0 := by injection hsame
  rw [heq]
  exact ⟨hch, hnm⟩

/-- Claim C10: in every status reachable from a successful `start`, every
stacked level `(low, high)` satisfies `low < high` (so the assertion at the
top of `produce` never fires), and every chunk `produce` returns from a
reachable status is nonempty (`nnz ≥ 1`). -/
theorem C10_levels_nonempty (st : SplitStatus) (hre : ReachableStatus st) :
    (∀ k, k < st.part_low.length → st.part_low.getD k 0 < st.part_high.getD k 0) ∧
    (∀ cl ch dest st2, spt_SplitCore st = (Except.ok ((cl, ch), dest), st2) →
      1 ≤ dest.nnz) := by
  have hInv := reachable_inv st hre
  constructor
  · exact hInv.low_lt_high
  · intro cl ch dest st2 hcore
    by_cases hno : st.no_more = true
    · have hfix : spt_SplitCore st = (Except.error SptError.noMore, st) := by
        unfold spt_SplitCore
        rw [hno]
        rfl
      rw [hfix] at hcore
      simp at hcore
    · have hno' : st.no_more = false := by
        revert hno; cases st.no_more <;> simp
      obtain ⟨c, st2', hcore', hlt, _, _, _, _, _, _⟩ := produce_step st hInv hno'
      have hboth := hcore'.symm.trans hcore
      simp only [Prod.mk.injEq, Except.ok.injEq] at hboth
      obtain ⟨⟨⟨hcl, hch⟩, hdest⟩, _⟩ := hboth
      rw [← hdest]
      show 1 ≤ c - topLow st
      omega

/-- Witness for C10: the status right after `start` on Scenario A. -/
theorem C10_levels_nonempty_witness :
    (∀ k, k < stA.part_low.length → stA.part_low.getD k 0 < stA.part_high.getD k 0) ∧
    (∀ cl ch dest st2, spt_SplitCore stA = (Except.ok ((cl, ch), dest), st2) →
      1 ≤ dest.nnz) :=
  C10_levels_nonempty stA (ReachableStatus.start tsrA [3, 1] stA rfl)

/-- Claim C4: in every descend step of `produce`, the step pushed for a mode
`k` equals `((distinct_count - 1) / cuts_by_mode[k]) + 1` in integer division,
where `distinct_count` counts the distinct index values of mode `k` within
that level's range `[low, high)`; and it equals 1 when `distinct_count` is 0. -/
theorem C4_index_step_formula (tsr : SptSparseTensor) (cuts : List Nat)
    (fuel mode : Nat) (pl ph istep : List Nat)
    (h1 : pl.length = mode + 1) (h2 : ph.length = mode + 1) (h3 : istep.length = mode)
    (h4 : pl.getD mode 0 < ph.getD mode 0)
    (k : Nat) (hk1 : mode ≤ k) (hk2 : k < mode + fuel) :
    (0 < spt_distinctCount (tsr.inds.getD k [])
        ((descendLoop tsr cuts fuel mode (pl, ph, istep)).1.getD k 0)
        ((descendLoop tsr cuts fuel mode (pl, ph, istep)).2.1.getD k 0) →
      (descendLoop tsr cuts fuel mode (pl, ph, istep)).2.2.getD k 0 =
        (spt_distinctCount (tsr.inds.getD k [])
            ((descendLoop tsr cuts fuel mode (pl, ph, istep)).1.getD k 0)
            ((descendLoop tsr cuts fuel mode (pl, ph, istep)).2.1.getD k 0) - 1)
          / cuts.getD k 0 + 1) ∧
    (spt_distinctCount (tsr.inds.getD k [])
        ((descendLoop tsr cuts fuel mode (pl, ph, istep)).1.getD k 0)
        ((descendLoop tsr cuts fuel mode (pl, ph, istep)).2.1.getD k 0) = 0 →
      (descendLoop tsr cuts fuel mode (pl, ph, istep)).2.2.getD k 0 = 1) := by
  obtain ⟨pl2, ph2, istep2, heq, hL1, hL2, hL3, hpres, hpresS, hnewlow, hchain, hstep⟩ :=
    descendLoop_spec tsr cuts fuel mode pl ph istep h1 h2 h3 h4
  rw [heq]
  dsimp only
  rw [hstep k hk1 hk2]
  unfold computeIndexStep
  constructor
  · intro hpos
    rw [if_pos (by omega)]
  · intro hzero
    rw [if_neg (by omega)]

/-- Witness for C4 on Scenario A: the step pushed for mode 0 over the whole
range satisfies the division formula (the distinct count there is 3 > 0). -/
theorem C4_index_step_formula_witness :
    (descendLoop tsrA [3, 1] 2 0 ([0], [6], [])).2.2.getD 0 0 =
      (spt_distinctCount (tsrA.inds.getD 0 [])
          ((descendLoop tsrA [3, 1] 2 0 ([0], [6], [])).1.getD 0 0)
          ((descendLoop tsrA [3, 1] 2 0 ([0], [6], [])).2.1.getD 0 0) - 1)
        / [3, 1].getD 0 0 + 1 :=
  (C4_index_step_formula tsrA [3, 1] 2 0 [0] [6] []
    (by decide) (by decide) (by decide) (by decide) 0 (by decide) (by decide)).1
    (by decide)

/-- The step formula always yields a positive step. -/
theorem computeIndexStep_pos (a b : Nat) : 1 ≤ computeIndexStep a b := by
  unfold computeIndexStep
  split
  · exact Nat.le_add_left 1 _
  · exact le_rfl

/-- Length bounds for the sibling chain at one mode with a fixed step:
writing `dc` for the distinct count of `[low, high)` and `L` for the number of
siblings generated, `dc ≤ step * L`, `step * (L - 1) < dc`, and `L ≤ dc`. -/
theorem siblingChain_le (arr : List Nat) (step : Nat) (hs : 1 ≤ step) (high : Nat) :
    ∀ (fuel low : Nat), low < high → high - low ≤ fuel →
      spt_distinctCount arr low high
          ≤ step * (siblingChain arr step low high fuel).length ∧
      step * ((siblingChain arr step low high fuel).length - 1)
          < spt_distinctCount arr low high ∧
      (siblingChain arr step low high fuel).length ≤ spt_distinctCount arr low high := by
  intro fuel
  induction fuel with
  | zero => intro low h1 h2; omega
  | succ f ih =>
    intro low h1 h2
    have hdc1 : 1 ≤ spt_distinctCount arr low high := spt_distinctCount_pos arr low high
    have hspec := spt_findCut_spec arr low high step h1 hs
    have hchain : siblingChain arr step low high (f+1)
        = (low, spt_findCut arr low high step) ::
          siblingChain arr step (spt_findCut arr low high step) high f := by
      simp only [siblingChain]
      rw [if_pos h1]
    rcases le_or_lt (spt_distinctCount arr low high) step with hle | hgt
    · -- a single sibling covering the whole parent range
      have hcut := hspec.1 hle
      rw [hchain, hcut]
      have hempty : siblingChain arr step high high f = [] := by
        cases f with
        | zero => rfl
        | succ f2 =>
          simp only [siblingChain]
          rw [if_neg (by omega)]
      rw [hempty]
      simp only [List.length_cons, List.length_nil]
      refine ⟨?_, ?_, by omega⟩
      · rw [Nat.mul_one]
        exact hle
      · rw [Nat.add_sub_cancel, Nat.mul_zero]
        omega
    · obtain ⟨hlow, hhigh, hdc⟩ := hspec.2 hgt
      have hfuel2 : high - spt_findCut arr low high step ≤ f := by omega
      obtain ⟨ih1, ih2, ih3⟩ := ih (spt_findCut arr low high step) hhigh hfuel2
      rw [hdc] at ih1 ih2 ih3
      rw [hchain]
      simp only [List.length_cons]
      refine ⟨?_, ?_, by omega⟩
      · -- dc ≤ step * (L + 1)
        rw [Nat.mul_succ]
        have h4 := Nat.add_le_add_right ih1 step
        rwa [Nat.sub_add_cancel (le_of_lt hgt)] at h4
      · -- step * L < dc
        rw [Nat.add_sub_cancel]
        rcases Nat.eq_zero_or_pos (siblingChain arr step (spt_findCut arr low high step)
            high f).length with h0 | h0
        · rw [h0, Nat.mul_zero]
          omega
        · have hL : (siblingChain arr step (spt_findCut arr low high step) high f).length
              = ((siblingChain arr step (spt_findCut arr low high step) high f).length - 1)
                + 1 := by omega
          rw [hL, Nat.mul_succ]
          have h5 := Nat.add_lt_add_right ih2 step
          rwa [Nat.sub_add_cancel (le_of_lt hgt)] at h5

/-- Claim C5: at any mode and parent range `[low, high)`, the number of
sibling partitions the engine generates never exceeds the number of distinct
index values present, and never exceeds `cuts_by_mode[mode]` when the distinct
values are at least that many; in particular a mode with exactly 2 distinct
values and a requested cut count of 100 yields exactly 2 partitions. -/
theorem C5_partition_bound (arr : List Nat) (cuts low high : Nat)
    (hcuts : 0 < cuts) (hlh : low < high) :
    (siblingsAt arr cuts low high).length ≤ spt_distinctCount arr low high ∧
    (cuts ≤ spt_distinctCount arr low high →
      (siblingsAt arr cuts low high).length ≤ cuts) ∧
    (spt_distinctCount arr low high = 2 → cuts = 100 →
      (siblingsAt arr cuts low high).length = 2) := by
  have hdc1 : 1 ≤ spt_distinctCount arr low high := spt_distinctCount_pos arr low high
  have hs1 : 1 ≤ computeIndexStep (spt_distinctCount arr low high) cuts :=
    computeIndexStep_pos _ _
  obtain ⟨hA, hB, hC⟩ := siblingChain_le arr
    (computeIndexStep (spt_distinctCount arr low high) cuts) hs1 high
    (high - low) low hlh le_rfl
  have hA' : spt_distinctCount arr low high
      ≤ computeIndexStep (spt_distinctCount arr low high) cuts
        * (siblingsAt arr cuts low high).length := hA
  have hB' : computeIndexStep (spt_distinctCount arr low high) cuts
      * ((siblingsAt arr cuts low high).length - 1) < spt_distinctCount arr low high := hB
  have hC' : (siblingsAt arr cuts low high).length ≤ spt_distinctCount arr low high := hC
  have hkey : spt_distinctCount arr low high
      ≤ computeIndexStep (spt_distinctCount arr low high) cuts * cuts := by
    unfold computeIndexStep
    rw [if_pos (by omega)]
    have h1 := (Nat.div_lt_iff_lt_mul hcuts).mp
      (Nat.lt_succ_self ((spt_distinctCount arr low high - 1) / cuts))
    exact Nat.le_of_pred_lt h1
  refine ⟨hC', ?_, ?_⟩
  · intro hcle
    by_contra hcon
    push_neg at hcon
    have h2 : computeIndexStep (spt_distinctCount arr low high) cuts * cuts
        ≤ computeIndexStep (spt_distinctCount arr low high) cuts
          * ((siblingsAt arr cuts low high).length - 1) :=
      Nat.mul_le_mul_left _ (by omega)
    exact absurd hB' (Nat.not_lt.mpr (le_trans hkey h2))
  · intro h2 h100
    have hstep1 : computeIndexStep (spt_distinctCount arr low high) cuts = 1 := by
      rw [h2, h100]
      rfl
    rw [hstep1, Nat.one_mul] at hA'
    omega

/-- Witness for C5 at the Scenario A mode-0 index array with 3 distinct
values, cut count 2, over the whole range. -/
theorem C5_partition_bound_witness :
    (siblingsAt [0, 0, 1, 1, 2, 2] 2 0 6).length
        ≤ spt_distinctCount [0, 0, 1, 1, 2, 2] 0 6 ∧
    (2 ≤ spt_distinctCount [0, 0, 1, 1, 2, 2] 0 6 →
      (siblingsAt [0, 0, 1, 1, 2, 2] 2 0 6).length ≤ 2) ∧
    (spt_distinctCount [0, 0, 1, 1, 2, 2] 0 6 = 2 → 2 = 100 →
      (siblingsAt [0, 0, 1, 1, 2, 2] 2 0 6).length = 2) :=
  C5_partition_bound [0, 0, 1, 1, 2, 2] 2 0 6 (by decide) (by decide)

/-- Pointwise-equal functions map lists equally. -/
theorem listMap_congr {α β : Type} :
    ∀ (l : List α) (f g : α → β), (∀ a ∈ l, f a = g a) → l.map f = l.map g := by
  intro l
  induction l with
  | nil => intro f g _; rfl
  | cons a t ih =>
    intro f g h
    simp only [List.map_cons]
    rw [h a (List.mem_cons_self a t), ih f g (fun x hx => h x (List.mem_cons_of_mem a hx))]

/-- `tensorSorted` unfolded to adjacent-pair comparisons. -/
theorem tensorSorted_iff (t : SptSparseTensor) :
    tensorSorted t = true ↔
      ∀ p, p + 1 < t.nnz → lexLe (entryAt t p) (entryAt t (p+1)) = true := by
  unfold tensorSorted
  rw [List.all_eq_true]
  constructor
  · intro h p hp
    exact h p (List.mem_range.mpr (by omega))
  · intro h p hp
    have := List.mem_range.mp hp
    exact h p (by omega)

/-- The chunk's per-mode index array is the source's slice. -/
theorem materializeChunk_inds_getD (tsr : SptSparseTensor) (cl ch m : Nat)
    (hm : m < tsr.inds.length) :
    (materializeChunk tsr cl ch).inds.getD m []
      = ((tsr.inds.getD m []).drop cl).take (ch - cl) := by
  unfold materializeChunk
  exact listGetD_map _ [] [] tsr.inds m hm

/-- Inside the copied range, the chunk's index tuples coincide with the
source's shifted tuples. -/
theorem materializeChunk_entry (tsr : SptSparseTensor) (cl ch p : Nat)
    (hp : p < ch - cl) :
    entryAt (materializeChunk tsr cl ch) p = entryAt tsr (cl + p) := by
  unfold entryAt materializeChunk
  rw [List.map_map]
  apply listMap_congr
  intro arr _
  show ((arr.drop cl).take (ch - cl)).getD p 0 = arr.getD (cl + p) 0
  rw [listGetD_take 0 (arr.drop cl) (ch - cl) p hp, listGetD_drop 0 arr cl p]

/-- A chunk cut from a lexicographically sorted tensor is itself sorted:
adjacent pairs of the contiguous slice are adjacent pairs of the source. -/
theorem materializeChunk_sorted (tsr : SptSparseTensor) (cl ch : Nat)
    (hch : ch ≤ tsr.nnz) (hsort : tensorSorted tsr = true) :
    tensorSorted (materializeChunk tsr cl ch) = true := by
  rw [tensorSorted_iff] at hsort ⊢
  intro p hp
  have hp' : p + 1 < ch - cl := hp
  rw [materializeChunk_entry tsr cl ch p (by omega),
      materializeChunk_entry tsr cl ch (p+1) (by omega)]
  have he : cl + (p + 1) = (cl + p) + 1 := by omega
  rw [he]
  exact hsort (cl + p) (by omega)

/-- Claim C7: every chunk returned by `produce` from a reachable status over a
well-formed, sorted tensor has the source's mode count and dimensions, `nnz`
equal to `high - low` for its range, index and value arrays equal
element-for-element (and in order) to the source's entries at positions
`low..high-1`, and stays lexicographically sorted. -/
theorem C7_chunk_contents (st : SplitStatus) (cl ch : Nat) (dest : SptSparseTensor)
    (st2 : SplitStatus)
    (hre : ReachableStatus st)
    (hlen : st.tsr.inds.length = st.tsr.nmodes)
    (hwf : ∀ arr ∈ st.tsr.inds, arr.length = st.tsr.nnz)
    (hv : st.tsr.values.length = st.tsr.nnz)
    (hsort : tensorSorted st.tsr = true)
    (hp : spt_SplitCore st = (Except.ok ((cl, ch), dest), st2)) :
    dest.nmodes = st.tsr.nmodes ∧
    dest.ndims = st.tsr.ndims ∧
    dest.nnz = ch - cl ∧
    dest.inds.length = st.tsr.nmodes ∧
    (∀ m, m < st.tsr.nmodes → (dest.inds.getD m []).length = ch - cl) ∧
    (∀ m q, m < st.tsr.nmodes → q < ch - cl →
      (dest.inds.getD m []).getD q 0 = (st.tsr.inds.getD m []).getD (cl + q) 0) ∧
    dest.values.length = ch - cl ∧
    (∀ q, q < ch - cl → dest.values.getD q 0 = st.tsr.values.getD (cl + q) 0) ∧
    tensorSorted dest = true := by
  have hInv := reachable_inv st hre
  have hno' : st.no_more = false := by
    by_cases hno : st.no_more = true
    · exfalso
      have hfix : spt_SplitCore st = (Except.error SptError.noMore, st) := by
        unfold spt_SplitCore
        rw [hno]
        rfl
      rw [hfix] at hp
      simp at hp
    · revert hno; cases st.no_more <;> simp
  obtain ⟨c, st2', hcore', hlt, hle, _, _, _, _, _⟩ := produce_step st hInv hno'
  have hboth := hcore'.symm.trans hp
  simp only [Prod.mk.injEq, Except.ok.injEq] at hboth
  obtain ⟨⟨⟨hcl, hch⟩, hdest⟩, _⟩ := hboth
  subst hcl
  subst hch
  subst hdest
  refine ⟨rfl, rfl, rfl, ?_, ?_, ?_, ?_, ?_, ?_⟩
  · show (st.tsr.inds.map _).length = st.tsr.nmodes
    rw [List.length_map]
    exact hlen
  · intro m hm
    rw [materializeChunk_inds_getD st.tsr (topLow st) c m (by omega)]
    have harr : (st.tsr.inds.getD m []).length = st.tsr.nnz :=
      hwf _ (listGetD_mem [] st.tsr.inds m (by omega))
    rw [List.length_take, List.length_drop, harr, Nat.min_eq_left (by omega)]
  · intro m q hm hq
    rw [materializeChunk_inds_getD st.tsr (topLow st) c m (by omega)]
    rw [listGetD_take 0 _ (c - topLow st) q hq, listGetD_drop 0 _ (topLow st) q]
  · show ((st.tsr.values.drop (topLow st)).take (c - topLow st)).length = c - topLow st
    rw [List.length_take, List.length_drop, hv, Nat.min_eq_left (by omega)]
  · intro q hq
    show ((st.tsr.values.drop (topLow st)).take (c - topLow st)).getD q 0
        = st.tsr.values.getD (topLow st + q) 0
    rw [listGetD_take 0 _ (c - topLow st) q hq, listGetD_drop 0 _ (topLow st) q]
  · exact materializeChunk_sorted st.tsr (topLow st) c hle hsort

/-- Witness for C7: the first chunk produced on Scenario A (range `[0, 2)`). -/
theorem C7_chunk_contents_witness :
    (materializeChunk stA.tsr 0 2).nmodes = stA.tsr.nmodes ∧
    (materializeChunk stA.tsr 0 2).ndims = stA.tsr.ndims ∧
    (materializeChunk stA.tsr 0 2).nnz = 2 - 0 ∧
    (materializeChunk stA.tsr 0 2).inds.length = stA.tsr.nmodes ∧
    (∀ m, m < stA.tsr.nmodes →
      ((materializeChunk stA.tsr 0 2).inds.getD m []).length = 2 - 0) ∧
    (∀ m q, m < stA.tsr.nmodes → q < 2 - 0 →
      ((materializeChunk stA.tsr 0 2).inds.getD m []).getD q 0
        = (stA.tsr.inds.getD m []).getD (0 + q) 0) ∧
    (materializeChunk stA.tsr 0 2).values.length = 2 - 0 ∧
    (∀ q, q < 2 - 0 →
      (materializeChunk stA.tsr 0 2).values.getD q 0
        = stA.tsr.values.getD (0 + q) 0) ∧
    tensorSorted (materializeChunk stA.tsr 0 2) = true :=
  C7_chunk_contents stA 0 2 (materializeChunk stA.tsr 0 2) (spt_SplitCore stA).2
    (ReachableStatus.start tsrA [3, 1] stA rfl)
    (by decide) (by decide) (by decide) (by decide) rfl
